import Mathlib

/-
Verification of the wangle ConnectionManager
(src/wangle/acceptor/ConnectionManager.h) via a shallow embedding.

The header file is the only repository source available: the inline members
(getNumConnections, iterateConns, getDefaultTimeout, setLoweredIdleTimeout,
the ShutdownState enum, the partition-list comment at lines 199-220) are
embedded directly from the code.  The out-of-line members (addConnection,
removeConnection, dropIdleConnections, dropAllConnections,
initiateGracefulShutdown, drainAllConnections, idleGracefulTimeoutExpired)
are declared but their definitions are not part of the repository snapshot,
so they are modelled from the specification; each such definition carries a
doc comment saying so.

State model: `CM` carries the intrusive partition list `conns` (busy region
`[0, idleIdx)`, idle region `[idleIdx, conns.length)`, exactly as the
comment on `conns_`/`idleIterator_` describes), the drain cursor
`drainIdx`, the wheel-timer registrations `pending` (at most one per
connection id), the shutdown state, and the two timeout durations in
milliseconds (Int, as std::chrono::milliseconds is a signed count).
Observer callbacks are modelled as event lists returned by the operations.
-/

namespace Wangle

/-- Shutdown states of a ConnectionManager, from the `ShutdownState` enum in
ConnectionManager.h lines 173-183. -/
inductive ShutdownState : Type where
  | NONE
  | NOTIFY_PENDING_SHUTDOWN
  | NOTIFY_PENDING_SHUTDOWN_COMPLETE
  | CLOSE_WHEN_IDLE
  | CLOSE_WHEN_IDLE_COMPLETE
deriving DecidableEq

/-- Numeric value of each shutdown state, from the enumerator values
(uint8_t 0..4) in ConnectionManager.h lines 173-183. -/
def ShutdownState.rank : ShutdownState → Nat
  | ShutdownState.NONE => 0
  | ShutdownState.NOTIFY_PENDING_SHUTDOWN => 1
  | ShutdownState.NOTIFY_PENDING_SHUTDOWN_COMPLETE => 2
  | ShutdownState.CLOSE_WHEN_IDLE => 3
  | ShutdownState.CLOSE_WHEN_IDLE_COMPLETE => 4

/-- A managed connection as seen by the manager: an identity and the
busy/idle classification the connection itself reports. -/
structure Conn where
  id : Nat
  busy : Bool
deriving DecidableEq

/-- ConnectionManager state.  `conns` and `idleIdx` embed `conns_` and
`idleIterator_` (busy region `[begin, idleIterator_)`, idle region
`[idleIterator_, end)`); `drainIdx` embeds `drainIterator_`; `pending`
embeds the `connTimeouts_` wheel registrations; `timeout` embeds
`timeout_`; `idleConnEarlyDropThreshold` embeds
`idleConnEarlyDropThreshold_`; `pendingGrace`/`graceTimer` embed the
grace-period bookkeeping of `idleLoopCallback_`. -/
structure CM where
  conns : List Conn
  idleIdx : Nat
  drainIdx : Nat
  pending : List (Nat × Int)
  shutdownState : ShutdownState
  pendingGrace : Int
  graceTimer : Option Int
  timeout : Int
  idleConnEarlyDropThreshold : Int
deriving DecidableEq

/-- Observer events, modelling the `ConnectionManager::Callback` observer
interface (onConnectionAdded, onConnectionRemoved, onEmpty). -/
inductive Ev : Type where
  | added
  | removed
  | empty
deriving DecidableEq

/-- Embeds `getNumConnections()`: `return conns_.size();`
(ConnectionManager.h line 116). -/
def getNumConnections (m : CM) : Nat := m.conns.length

/-- Embeds `getDefaultTimeout()`: `return timeout_;`
(ConnectionManager.h lines 127-129). -/
def getDefaultTimeout (m : CM) : Int := m.timeout

/-- Embeds `setLoweredIdleTimeout(timeout)` (ConnectionManager.h lines
131-135): `CHECK(timeout >= 0); CHECK(timeout <= timeout_);` then assigns
`idleConnEarlyDropThreshold_ = timeout`.  A failed CHECK is a fatal
assertion, modelled as `none`. -/
def setLoweredIdleTimeout (t : Int) (m : CM) : Option CM :=
  if 0 ≤ t ∧ t ≤ m.timeout then
    some { m with idleConnEarlyDropThreshold := t }
  else
    none

/-- Modelled from the spec: the effective idle timeout is "the
lesser-or-equal of the two" durations (default timeout and early-drop
threshold); the computation using the threshold lives in the missing
ConnectionManager.cpp. -/
def effectiveTimeout (m : CM) : Int :=
  min m.timeout m.idleConnEarlyDropThreshold

/-- Modelled from the spec: `scheduleTimeout(connection, duration)`
re-registers the connection with the timer wheel, cancelling any prior
pending registration first (at most one pending timeout per connection);
the body is in the missing ConnectionManager.cpp.  Idle-timeout scheduling
always uses the effective timeout. -/
def scheduleIdleTimeout (i : Nat) (m : CM) : CM :=
  { m with pending := (i, effectiveTimeout m) :: m.pending.filter (fun e => e.1 != i) }

/-- Modelled from the spec: `addConnection(connection, timeout)` links the
connection at the busy end of the partition list (newly added connections
are assumed active), optionally schedules an idle timeout immediately, and
fires the "added" observer notification; the body is in the missing
ConnectionManager.cpp. -/
def addConnection (i : Nat) (sched : Bool) (m : CM) : CM × List Ev :=
  let m1 := { m with conns := ⟨i, true⟩ :: m.conns, idleIdx := m.idleIdx + 1 }
  ((if sched then scheduleIdleTimeout i m1 else m1), [Ev.added])

/-- Modelled from the spec: `removeConnection(connection)` unlinks the
connection from whichever region it occupies, cancels any pending timeout
for it, fires the "removed" notification, and fires "empty" exactly when
the list becomes empty; the body is in the missing ConnectionManager.cpp. -/
def removeConnection (i : Nat) (m : CM) : CM × List Ev :=
  let p := m.conns.findIdx (fun c => c.id == i)
  if p < m.conns.length then
    let conns' := m.conns.eraseIdx p
    ({ m with
        conns := conns',
        idleIdx := if p < m.idleIdx then m.idleIdx - 1 else m.idleIdx,
        pending := m.pending.filter (fun e => e.1 != i) },
      Ev.removed :: (if conns'.isEmpty then [Ev.empty] else []))
  else
    (m, [])

/-- State component of `removeConnection`, for folding over many ids. -/
def removeConnectionS (i : Nat) (m : CM) : CM := (removeConnection i m).1

/-- A registration or teardown call on the manager, for reasoning about
sequences of addConnection/removeConnection operations. -/
inductive Op : Type where
  | add (i : Nat) (sched : Bool)
  | remove (i : Nat)
deriving DecidableEq

/-- One manager call together with the observer events it fires. -/
def stepOp (m : CM) : Op → CM × List Ev
  | Op.add i s => addConnection i s m
  | Op.remove i => removeConnection i m

/-- State after one manager call. -/
def stepState (m : CM) (o : Op) : CM := (stepOp m o).1

/-- State after a sequence of manager calls. -/
def mAfter (m : CM) (ops : List Op) : CM := ops.foldl stepState m

/-- Freshly constructed manager: empty list, no timers, shutdown state
NONE, early-drop threshold disabled by setting it to the default timeout
(the header comment on `idleConnEarlyDropThreshold_` describes equality
with the default as the disabled setting). -/
def initCM (t : Int) : CM :=
  { conns := []
    idleIdx := 0
    drainIdx := 0
    pending := []
    shutdownState := ShutdownState.NONE
    pendingGrace := 0
    graceTimer := none
    timeout := t
    idleConnEarlyDropThreshold := t }

/-- Structural invariant of the partition list: the boundary is inside the
list, connection ids are distinct (a connection is linked at most once),
every connection in the busy region reports busy, every connection in the
idle region reports idle. -/
def Inv (m : CM) : Prop :=
  m.idleIdx ≤ m.conns.length
    ∧ (m.conns.map (fun c => c.id)).Nodup
    ∧ (∀ c ∈ m.conns.take m.idleIdx, c.busy = true)
    ∧ (∀ c ∈ m.conns.drop m.idleIdx, c.busy = false)

/-- States reachable from a start state by addConnection/removeConnection
calls; an added connection is fresh (not currently linked), matching the
invariant that a connection is linked into at most one manager's list. -/
inductive Reach : CM → CM → Prop where
  | refl (m : CM) : Reach m m
  | add (m m' : CM) (i : Nat) (s : Bool) :
      Reach m m' → (∀ c ∈ m'.conns, c.id ≠ i) → Reach m (addConnection i s m').1
  | remove (m m' : CM) (i : Nat) :
      Reach m m' → Reach m (removeConnection i m').1

/-- Modelled from the spec: one step of the walk of `dropIdleConnections`.  The
idle region is ordered by recency of the busy-to-idle transition
(most-recent at the boundary, oldest at the far end), so the walk from the
"oldest-idle" end closes the last list element while the idle region is
nonempty, cancelling its timer; the body is in the missing
ConnectionManager.cpp. -/
def dropIdleLoop : Nat → CM → CM × List Conn
  | 0, m => (m, [])
  | n+1, m =>
    if h : m.idleIdx < m.conns.length then
      let c := m.conns.get ⟨m.conns.length - 1, by omega⟩
      let m' := { m with
        conns := m.conns.dropLast,
        pending := m.pending.filter (fun e => e.1 != c.id) }
      let r := dropIdleLoop n m'
      (r.1, c :: r.2)
    else
      (m, [])

/-- Modelled from the spec: `dropIdleConnections(num)` forcibly closes up
to `num` connections walking the idle region from its oldest-idle end and
returns the actual number closed; the body is in the missing
ConnectionManager.cpp. -/
def dropIdleConnections (num : Nat) (m : CM) : CM × Nat :=
  let r := dropIdleLoop num m
  (r.1, r.2.length)

/-- Modelled from the spec: `dropAllConnections()` unconditionally closes
every tracked connection regardless of busy/idle state or shutdown-state
progress (each forced closure unlinks the connection, i.e. behaves as a
removeConnection); it returns the closed connections; the body is in the
missing ConnectionManager.cpp. -/
def dropAllConnections (m : CM) : CM × List Conn :=
  ((m.conns.map (fun c => c.id)).foldl (fun mm i => removeConnectionS i mm) m, m.conns)

/-- Modelled from the spec: the fixed per-pass chunk size used by the
incremental drain ("a fixed-size chunk of connections ... is processed per
pass"); the concrete constant is in the missing ConnectionManager.cpp. -/
def kDrainBatch : Nat := 64

/-- Modelled from the spec: `drainAllConnections()` processes one bounded
batch of the shutdown sweep starting at the drain cursor.  In
NOTIFY_PENDING_SHUTDOWN it delivers pending-shutdown notifications; once
every connection has been notified it passes through
NOTIFY_PENDING_SHUTDOWN_COMPLETE, arms the grace timer, and enters
CLOSE_WHEN_IDLE.  In CLOSE_WHEN_IDLE it closes the idle connections of the
chunk immediately, leaves busy ones in place with the close-when-idle
notification, and advances to CLOSE_WHEN_IDLE_COMPLETE when the cursor
reaches the end; the body is in the missing ConnectionManager.cpp. -/
def drainAllConnections (m : CM) : CM :=
  match m.shutdownState with
  | ShutdownState.NOTIFY_PENDING_SHUTDOWN =>
    let idx' := m.drainIdx + min kDrainBatch (m.conns.length - m.drainIdx)
    if idx' < m.conns.length then
      { m with drainIdx := idx' }
    else
      { m with shutdownState := ShutdownState.CLOSE_WHEN_IDLE, drainIdx := 0,
               graceTimer := some m.pendingGrace }
  | ShutdownState.CLOSE_WHEN_IDLE =>
    let chunk := (m.conns.drop m.drainIdx).take kDrainBatch
    let idleIds := (chunk.filter (fun c => !c.busy)).map (fun c => c.id)
    let m' := idleIds.foldl (fun mm i => removeConnectionS i mm) m
    let idx' := m.drainIdx + (chunk.length - idleIds.length)
    if idx' < m'.conns.length then
      { m' with drainIdx := idx' }
    else
      { m' with shutdownState := ShutdownState.CLOSE_WHEN_IDLE_COMPLETE, drainIdx := idx' }
  | _ => m

/-- Modelled from the spec: `initiateGracefulShutdown(idleGrace)` is a
no-op unless the shutdown state is NONE; otherwise it advances to
NOTIFY_PENDING_SHUTDOWN, records the grace duration, and runs the first
drain pass; the body is in the missing ConnectionManager.cpp. -/
def initiateGracefulShutdown (idleGrace : Int) (m : CM) : CM :=
  if m.shutdownState = ShutdownState.NONE then
    drainAllConnections
      { m with shutdownState := ShutdownState.NOTIFY_PENDING_SHUTDOWN,
               drainIdx := 0, pendingGrace := idleGrace }
  else
    m

/-- Modelled from the spec: grace-timer expiry.  If the manager has not yet
reached CLOSE_WHEN_IDLE_COMPLETE, all remaining connections (the still-busy
ones included) become eligible for hard closure and are closed, completing
the shutdown; the body is in the missing ConnectionManager.cpp. -/
def idleGracefulTimeoutExpired (m : CM) : CM :=
  if m.shutdownState = ShutdownState.CLOSE_WHEN_IDLE_COMPLETE then
    m
  else
    let m' := (m.conns.map (fun c => c.id)).foldl (fun mm i => removeConnectionS i mm) m
    { m' with shutdownState := ShutdownState.CLOSE_WHEN_IDLE_COMPLETE }

/-- Embeds the loop of `iterateConns(func)` (ConnectionManager.h lines
118-125): `auto it = conns_.begin(); while (it != conns_.end()) {
func(&(*it)); it++; }`, for a visitor that does not structurally mutate the
list.  The visitor's side effects are threaded as a state `σ`. -/
def iterateConnsLoop {σ : Type} (f : Conn → σ → σ) (conns : List Conn) (i : Nat) (s : σ) : σ :=
  if h : i < conns.length then
    iterateConnsLoop f conns (i + 1) (f (conns.get ⟨i, h⟩) s)
  else
    s
termination_by conns.length - i

/-- Embeds `iterateConns(func)` (ConnectionManager.h lines 118-125) for a
non-mutating visitor. -/
def iterateConns {σ : Type} (m : CM) (f : Conn → σ → σ) (s : σ) : σ :=
  iterateConnsLoop f m.conns 0 s

/-- Embeds the `iterateConns` loop when the visitor removes connections:
`it++` runs only after `func` returns, and unlinking a node other than the
current one from the doubly-linked intrusive list leaves the current
iterator's successor chain intact, so the traversal continues through the
not-yet-visited connections that were not removed.  `f c` is the set of
connection ids the visitor unlinks while visiting `c` (removal of the
current connection itself is the documented unsafe case and has no effect
here, matching a removal of some other connection).  The result is the list
of visited connections in visit order. -/
def iterateConnsMut (f : Conn → List Nat) : List Conn → List Conn
  | [] => []
  | c :: rest =>
    c :: iterateConnsMut f (rest.filter (fun d => !decide (d.id ∈ f c)))
termination_by l => l.length
decreasing_by
  simp only [List.length_cons]
  exact Nat.lt_succ_of_le (List.length_filter_le _ _)

end Wangle

namespace Wangle

theorem addConnection_conns (i : Nat) (s : Bool) (m : CM) :
    ((addConnection i s m).1).conns = ⟨i, true⟩ :: m.conns := by
  cases s <;> rfl

theorem addConnection_idleIdx (i : Nat) (s : Bool) (m : CM) :
    ((addConnection i s m).1).idleIdx = m.idleIdx + 1 := by
  cases s <;> rfl

/-- C5: setLoweredIdleTimeout(t) succeeds (setting the early-drop threshold
to t) exactly when 0 ≤ t ≤ default timeout; outside that range it hits a
fatal assertion (modelled as `none`). -/
theorem setLoweredIdleTimeout_spec (t : Int) (m : CM) :
    ((setLoweredIdleTimeout t m).isSome ↔ 0 ≤ t ∧ t ≤ getDefaultTimeout m)
      ∧ (∀ m', setLoweredIdleTimeout t m = some m' →
          m'.idleConnEarlyDropThreshold = t) := by
  unfold setLoweredIdleTimeout getDefaultTimeout
  constructor
  · by_cases h : 0 ≤ t ∧ t ≤ m.timeout
    · simp [h]
    · simp [h]
  · intro m' h
    by_cases hc : 0 ≤ t ∧ t ≤ m.timeout
    · rw [if_pos hc] at h
      injection h with h
      rw [← h]
    · rw [if_neg hc] at h
      exact absurd h (by simp)

theorem setLoweredIdleTimeout_spec_witness :
    ((0:Int) ≤ 50 ∧ (50:Int) ≤ getDefaultTimeout (initCM 100))
      ∧ (setLoweredIdleTimeout 50 (initCM 100)).isSome := by
  refine ⟨⟨by decide, by decide⟩, ?_⟩
  exact (setLoweredIdleTimeout_spec 50 (initCM 100)).1.mpr ⟨by decide, by decide⟩

/-- C9: setLoweredIdleTimeout writes only the early-drop threshold field;
every other field, and in particular the default timeout returned by
getDefaultTimeout, is unchanged. -/
theorem setLoweredIdleTimeout_frame (t : Int) (m m' : CM)
    (h : setLoweredIdleTimeout t m = some m') :
    m' = { m with idleConnEarlyDropThreshold := t }
      ∧ getDefaultTimeout m' = getDefaultTimeout m := by
  unfold setLoweredIdleTimeout at h
  by_cases hc : 0 ≤ t ∧ t ≤ m.timeout
  · rw [if_pos hc] at h
    injection h with h
    subst h
    exact ⟨rfl, rfl⟩
  · rw [if_neg hc] at h
    exact absurd h (by simp)

theorem setLoweredIdleTimeout_frame_witness :
    ({ initCM 100 with idleConnEarlyDropThreshold := 50 } : CM)
        = { initCM 100 with idleConnEarlyDropThreshold := 50 }
      ∧ getDefaultTimeout ({ initCM 100 with idleConnEarlyDropThreshold := 50 } : CM)
        = getDefaultTimeout (initCM 100) :=
  setLoweredIdleTimeout_frame 50 (initCM 100)
    { initCM 100 with idleConnEarlyDropThreshold := 50 } (by decide)

/-- C6: after a successful setLoweredIdleTimeout(t), already-pending timer
registrations are untouched, and every subsequently scheduled idle timeout
uses min(default timeout, t) as its duration. -/
theorem setLoweredIdleTimeout_effective (t : Int) (m m' : CM)
    (h : setLoweredIdleTimeout t m = some m') :
    m'.pending = m.pending
      ∧ effectiveTimeout m' = min (getDefaultTimeout m) t
      ∧ (∀ i, (scheduleIdleTimeout i m').pending
          = (i, min (getDefaultTimeout m) t) :: m'.pending.filter (fun e => e.1 != i)) := by
  unfold setLoweredIdleTimeout at h
  by_cases hc : 0 ≤ t ∧ t ≤ m.timeout
  · rw [if_pos hc] at h
    injection h with h
    subst h
    refine ⟨rfl, ?_, ?_⟩
    · rfl
    · intro i
      rfl
  · rw [if_neg hc] at h
    exact absurd h (by simp)

theorem setLoweredIdleTimeout_effective_witness :
    ({ initCM 100 with idleConnEarlyDropThreshold := 50 } : CM).pending = (initCM 100).pending
      ∧ effectiveTimeout ({ initCM 100 with idleConnEarlyDropThreshold := 50 } : CM)
          = min (getDefaultTimeout (initCM 100)) 50
      ∧ (∀ i, (scheduleIdleTimeout i ({ initCM 100 with idleConnEarlyDropThreshold := 50 } : CM)).pending
          = (i, min (getDefaultTimeout (initCM 100)) 50)
              :: ({ initCM 100 with idleConnEarlyDropThreshold := 50 } : CM).pending.filter
                    (fun e => e.1 != i)) :=
  setLoweredIdleTimeout_effective 50 (initCM 100)
    { initCM 100 with idleConnEarlyDropThreshold := 50 } (by decide)

theorem removeConnectionS_shutdownState (i : Nat) (m : CM) :
    (removeConnectionS i m).shutdownState = m.shutdownState := by
  simp only [removeConnectionS, removeConnection]
  split <;> rfl

theorem foldl_removeS_shutdownState (l : List Nat) :
    ∀ m : CM, (l.foldl (fun mm i => removeConnectionS i mm) m).shutdownState = m.shutdownState := by
  induction l with
  | nil => intro m; rfl
  | cons a t ih =>
    intro m
    rw [List.foldl_cons, ih, removeConnectionS_shutdownState]

theorem rank_le_four (s : ShutdownState) : ShutdownState.rank s ≤ 4 := by
  cases s <;> simp [ShutdownState.rank]

theorem drain_rank (m : CM) :
    ShutdownState.rank m.shutdownState
      ≤ ShutdownState.rank (drainAllConnections m).shutdownState := by
  unfold drainAllConnections
  cases hs : m.shutdownState with
  | NOTIFY_PENDING_SHUTDOWN =>
    simp only [hs]
    split
    · simp [hs, ShutdownState.rank]
    · simp [ShutdownState.rank]
  | CLOSE_WHEN_IDLE =>
    simp only [hs]
    split
    · simp only [ShutdownState.rank]
      rw [foldl_removeS_shutdownState, hs]
    · simp [ShutdownState.rank]
  | NONE => simp [hs]
  | NOTIFY_PENDING_SHUTDOWN_COMPLETE => simp [hs]
  | CLOSE_WHEN_IDLE_COMPLETE => simp [hs]

/-- C3: the shutdown state only moves forward along the enumerated chain
(each shutdown-driver operation leaves the numeric rank of the state no
smaller), and initiateGracefulShutdown is a no-op whenever the state is
not NONE, so a second call during shutdown has no additional effect. -/
theorem shutdown_forward :
    (∀ (m : CM) (g : Int),
        m.shutdownState ≠ ShutdownState.NONE → initiateGracefulShutdown g m = m)
      ∧ (∀ (m : CM) (g : Int),
          ShutdownState.rank m.shutdownState
            ≤ ShutdownState.rank (initiateGracefulShutdown g m).shutdownState)
      ∧ (∀ m : CM,
          ShutdownState.rank m.shutdownState
            ≤ ShutdownState.rank (drainAllConnections m).shutdownState)
      ∧ (∀ m : CM,
          ShutdownState.rank m.shutdownState
            ≤ ShutdownState.rank (idleGracefulTimeoutExpired m).shutdownState) := by
  refine ⟨?_, ?_, drain_rank, ?_⟩
  · intro m g h
    unfold initiateGracefulShutdown
    rw [if_neg h]
  · intro m g
    unfold initiateGracefulShutdown
    by_cases h : m.shutdownState = ShutdownState.NONE
    · rw [if_pos h, h]
      exact Nat.zero_le _
    · rw [if_neg h]
  · intro m
    unfold idleGracefulTimeoutExpired
    by_cases h : m.shutdownState = ShutdownState.CLOSE_WHEN_IDLE_COMPLETE
    · rw [if_pos h]
    · rw [if_neg h]
      simp only [ShutdownState.rank]
      exact rank_le_four _

theorem shutdown_forward_witness :
    initiateGracefulShutdown 7 ({ initCM 100 with shutdownState := ShutdownState.CLOSE_WHEN_IDLE } : CM)
      = ({ initCM 100 with shutdownState := ShutdownState.CLOSE_WHEN_IDLE } : CM) :=
  shutdown_forward.1 { initCM 100 with shutdownState := ShutdownState.CLOSE_WHEN_IDLE } 7
    (by decide)

theorem foldl_remove_all :
    ∀ (l : List Conn) (m : CM), m.conns = l →
      ((l.map (fun c => c.id)).foldl (fun mm i => removeConnectionS i mm) m).conns = [] := by
  intro l
  induction l with
  | nil => intro m h; simpa using h
  | cons c rest ih =>
    intro m h
    rw [List.map_cons, List.foldl_cons]
    apply ih
    simp only [removeConnectionS, removeConnection, h]
    simp [List.findIdx_cons]

/-- C7: dropAllConnections closes every tracked connection (whatever the
busy/idle mix or shutdown state), and immediately afterwards
getNumConnections returns 0. -/
theorem dropAllConnections_spec (m : CM) :
    (dropAllConnections m).2 = m.conns
      ∧ getNumConnections (dropAllConnections m).1 = 0 := by
  refine ⟨rfl, ?_⟩
  unfold dropAllConnections getNumConnections
  rw [foldl_remove_all m.conns m rfl]
  rfl

theorem iterateConnsLoop_eq_foldl {σ : Type} (f : Conn → σ → σ) (l : List Conn) :
    ∀ (n i : Nat) (s : σ), l.length - i ≤ n →
      iterateConnsLoop f l i s = (l.drop i).foldl (fun a c => f c a) s := by
  intro n
  induction n with
  | zero =>
    intro i s h
    have hi : ¬ i < l.length := by omega
    rw [iterateConnsLoop, dif_neg hi, List.drop_of_length_le (by omega)]
    rfl
  | succ n ih =>
    intro i s h
    by_cases hi : i < l.length
    · rw [iterateConnsLoop, dif_pos hi, ih (i + 1) _ (by omega),
        List.drop_eq_getElem_cons hi, List.foldl_cons]
      rfl
    · rw [iterateConnsLoop, dif_neg hi, List.drop_of_length_le (by omega)]
      rfl

theorem foldl_snoc_trace (l : List Conn) :
    ∀ s : List Conn, l.foldl (fun a c => a ++ [c]) s = s ++ l := by
  induction l with
  | nil => intro s; simp
  | cons c rest ih =>
    intro s
    rw [List.foldl_cons, ih]
    simp

/-- C8: for a visitor that does not structurally mutate the list,
iterateConns invokes the visitor exactly once per currently-tracked
connection, in list order from begin to end: the visit trace equals the
connection list, and in general the loop is a left fold over it. -/
theorem iterateConns_visits_in_order (m : CM) :
    iterateConns m (fun c l => l ++ [c]) ([] : List Conn) = m.conns
      ∧ (∀ {σ : Type} (f : Conn → σ → σ) (s : σ),
          iterateConns m f s = m.conns.foldl (fun a c => f c a) s) := by
  constructor
  · rw [iterateConns, iterateConnsLoop_eq_foldl _ _ m.conns.length 0 _ (by omega),
      List.drop_zero, foldl_snoc_trace]
    rfl
  · intro σ f s
    rw [iterateConns, iterateConnsLoop_eq_foldl _ _ m.conns.length 0 _ (by omega),
      List.drop_zero]

theorem iterateConnsMut_subset (f : Conn → List Nat) :
    ∀ (n : Nat) (l : List Conn), l.length ≤ n →
      ∀ x ∈ iterateConnsMut f l, x ∈ l := by
  intro n
  induction n with
  | zero =>
    intro l h x hx
    have : l = [] := List.length_eq_zero.mp (by omega)
    subst this
    rw [iterateConnsMut] at hx
    exact absurd hx (List.not_mem_nil x)
  | succ n ih =>
    intro l h x hx
    match l with
    | [] =>
      rw [iterateConnsMut] at hx
      exact absurd hx (List.not_mem_nil x)
    | c :: rest =>
      rw [iterateConnsMut] at hx
      rcases List.mem_cons.mp hx with hx | hx
      · exact hx ▸ List.mem_cons_self c rest
      · have hlen : (rest.filter (fun d => !decide (d.id ∈ f c))).length ≤ n := by
          have := List.length_filter_le (fun d => !decide (d.id ∈ f c)) rest
          simp only [List.length_cons] at h
          omega
        have := ih _ hlen x hx
        exact List.mem_cons_of_mem c ((List.filter_sublist rest).subset this)

theorem iterateConnsMut_nodup (f : Conn → List Nat) :
    ∀ (n : Nat) (l : List Conn), l.length ≤ n → (l.map (fun c => c.id)).Nodup →
      ((iterateConnsMut f l).map (fun c => c.id)).Nodup := by
  intro n
  induction n with
  | zero =>
    intro l h _
    have : l = [] := List.length_eq_zero.mp (by omega)
    subst this
    rw [iterateConnsMut]
    exact List.nodup_nil
  | succ n ih =>
    intro l h hnd
    match l with
    | [] =>
      rw [iterateConnsMut]
      exact List.nodup_nil
    | c :: rest =>
      rw [iterateConnsMut, List.map_cons, List.nodup_cons]
      rw [List.map_cons, List.nodup_cons] at hnd
      have hlen : (rest.filter (fun d => !decide (d.id ∈ f c))).length ≤ n := by
        have := List.length_filter_le (fun d => !decide (d.id ∈ f c)) rest
        simp only [List.length_cons] at h
        omega
      constructor
      · intro hcmem
        rcases List.mem_map.mp hcmem with ⟨x, hx, hxid⟩
        have hxr := (List.filter_sublist rest).subset
          (iterateConnsMut_subset f n _ hlen x hx)
        exact hnd.1 (List.mem_map.mpr ⟨x, hxr, hxid⟩)
      · exact ih _ hlen (((List.filter_sublist rest).map (fun c => c.id)).nodup hnd.2)

theorem iterateConnsMut_remaining_visited (f : Conn → List Nat) :
    ∀ (n : Nat) (l : List Conn), l.length ≤ n →
      ∀ x ∈ l, x.id ∉ (iterateConnsMut f l).flatMap f → x ∈ iterateConnsMut f l := by
  intro n
  induction n with
  | zero =>
    intro l h x hx _
    have : l = [] := List.length_eq_zero.mp (by omega)
    subst this
    exact absurd hx (List.not_mem_nil x)
  | succ n ih =>
    intro l h x hx hnr
    match l with
    | [] => exact absurd hx (List.not_mem_nil x)
    | c :: rest =>
      rw [iterateConnsMut] at hnr ⊢
      rw [List.flatMap_cons, List.mem_append] at hnr
      push_neg at hnr
      rcases List.mem_cons.mp hx with hx | hx
      · exact hx ▸ List.mem_cons_self c _
      · have hxf : x ∈ rest.filter (fun d => !decide (d.id ∈ f c)) := by
          rw [List.mem_filter]
          exact ⟨hx, by simpa using hnr.1⟩
        have hlen : (rest.filter (fun d => !decide (d.id ∈ f c))).length ≤ n := by
          have := List.length_filter_le (fun d => !decide (d.id ∈ f c)) rest
          simp only [List.length_cons] at h
          omega
        exact List.mem_cons_of_mem c (ih _ hlen x hxf hnr.2)

theorem iterateConnsMut_removed_not_later (f : Conn → List Nat) :
    ∀ (n : Nat) (l : List Conn), l.length ≤ n →
      ∀ x y : Conn, List.Sublist [x, y] (iterateConnsMut f l) → y.id ∉ f x := by
  intro n
  induction n with
  | zero =>
    intro l h x y hsub
    have : l = [] := List.length_eq_zero.mp (by omega)
    subst this
    rw [iterateConnsMut] at hsub
    have := List.sublist_nil.mp hsub
    exact absurd this (by simp)
  | succ n ih =>
    intro l h x y hsub
    match l with
    | [] =>
      rw [iterateConnsMut] at hsub
      have := List.sublist_nil.mp hsub
      exact absurd this (by simp)
    | c :: rest =>
      rw [iterateConnsMut] at hsub
      have hlen : (rest.filter (fun d => !decide (d.id ∈ f c))).length ≤ n := by
        have := List.length_filter_le (fun d => !decide (d.id ∈ f c)) rest
        simp only [List.length_cons] at h
        omega
      cases hsub with
      | cons _ h1 =>
        exact ih _ hlen x y h1
      | cons₂ _ h1 =>
        have hy : y ∈ iterateConnsMut f (rest.filter (fun d => !decide (d.id ∈ f x))) :=
          List.singleton_sublist.mp h1
        have hyf := iterateConnsMut_subset f n _ hlen y hy
        have := (List.mem_filter.mp hyf).2
        simp only [Bool.not_eq_true', decide_eq_false_iff_not] at this
        exact this

/-- C10: iterateConns advances its iterator only after the visitor call on
the current connection returns, so a visitor that removes connections
other than the one currently being visited leaves the traversal valid: no
connection is visited twice, every connection that is never removed is
visited, and whenever y is visited after x, y is not among the connections
the visitor removed while visiting x (no connection is visited after being
removed). -/
theorem iterateConnsMut_safe (f : Conn → List Nat) (todo : List Conn)
    (hnd : (todo.map (fun c => c.id)).Nodup) :
    ((iterateConnsMut f todo).map (fun c => c.id)).Nodup
      ∧ (∀ x ∈ todo,
          x.id ∉ (iterateConnsMut f todo).flatMap f → x ∈ iterateConnsMut f todo)
      ∧ (∀ x y : Conn, List.Sublist [x, y] (iterateConnsMut f todo) → y.id ∉ f x) :=
  ⟨iterateConnsMut_nodup f todo.length todo le_rfl hnd,
   iterateConnsMut_remaining_visited f todo.length todo le_rfl,
   iterateConnsMut_removed_not_later f todo.length todo le_rfl⟩

theorem iterateConnsMut_safe_witness :
    ((iterateConnsMut (fun c => if c.id = 1 then [3] else []) [⟨1, true⟩, ⟨2, false⟩, ⟨3, false⟩]).map
        (fun c => c.id)).Nodup
      ∧ (∀ x ∈ ([⟨1, true⟩, ⟨2, false⟩, ⟨3, false⟩] : List Conn),
          x.id ∉ (iterateConnsMut (fun c => if c.id = 1 then [3] else [])
              [⟨1, true⟩, ⟨2, false⟩, ⟨3, false⟩]).flatMap (fun c => if c.id = 1 then [3] else []) →
            x ∈ iterateConnsMut (fun c => if c.id = 1 then [3] else [])
              [⟨1, true⟩, ⟨2, false⟩, ⟨3, false⟩])
      ∧ (∀ x y : Conn,
          List.Sublist [x, y] (iterateConnsMut (fun c => if c.id = 1 then [3] else [])
            [⟨1, true⟩, ⟨2, false⟩, ⟨3, false⟩]) →
          y.id ∉ (fun c => if c.id = 1 then [3] else []) x) :=
  iterateConnsMut_safe (fun c => if c.id = 1 then [3] else [])
    [⟨1, true⟩, ⟨2, false⟩, ⟨3, false⟩] (by decide)

theorem inv_initCM (t : Int) : Inv (initCM t) := by
  refine ⟨by simp [initCM], by simp [initCM], ?_, ?_⟩ <;>
    intro c hc <;> simp [initCM] at hc

theorem inv_add (i : Nat) (s : Bool) (m : CM) (hinv : Inv m)
    (hfresh : ∀ c ∈ m.conns, c.id ≠ i) : Inv (addConnection i s m).1 := by
  obtain ⟨h1, h2, h3, h4⟩ := hinv
  unfold Inv
  rw [addConnection_conns, addConnection_idleIdx]
  refine ⟨?_, ?_, ?_, ?_⟩
  · simp only [List.length_cons]
    omega
  · rw [List.map_cons, List.nodup_cons]
    refine ⟨?_, h2⟩
    intro hmem
    rcases List.mem_map.mp hmem with ⟨c, hc, hid⟩
    exact hfresh c hc hid
  · rw [List.take_succ_cons]
    intro c hc
    rcases List.mem_cons.mp hc with hc | hc
    · rw [hc]
    · exact h3 c hc
  · rw [List.drop_succ_cons]
    exact h4

theorem inv_remove (i : Nat) (m : CM) (hinv : Inv m) : Inv (removeConnection i m).1 := by
  obtain ⟨h1, h2, h3, h4⟩ := hinv
  unfold removeConnection
  by_cases hfound : m.conns.findIdx (fun c => c.id == i) < m.conns.length
  · rw [if_pos hfound]
    set p := m.conns.findIdx (fun c => c.id == i) with hp
    have hE : m.conns.eraseIdx p = m.conns.take p ++ m.conns.drop (p + 1) :=
      List.eraseIdx_eq_take_drop_succ m.conns p
    have hElen : (m.conns.eraseIdx p).length = m.conns.length - 1 := by
      rw [List.length_eraseIdx]
      simp [hfound]
    have hlp : (m.conns.take p).length = p := by
      rw [List.length_take]
      omega
    have hnd : ((m.conns.eraseIdx p).map (fun c => c.id)).Nodup :=
      ((List.eraseIdx_sublist m.conns p).map (fun c => c.id)).nodup h2
    by_cases hlt : p < m.idleIdx
    · refine ⟨?_, hnd, ?_, ?_⟩
      · dsimp only
        rw [if_pos hlt, hElen]
        omega
      · dsimp only
        rw [if_pos hlt]
        intro c hc
        rw [hE, List.take_append_eq_append_take, hlp] at hc
        rcases List.mem_append.mp hc with hc | hc
        · have hsub : m.conns.take p = (m.conns.take m.idleIdx).take p := by
            rw [List.take_take, min_eq_left (by omega)]
          have hcp : c ∈ m.conns.take p := (List.take_sublist _ _).subset hc
          rw [hsub] at hcp
          exact h3 c ((List.take_sublist _ _).subset hcp)
        · have heq : (m.conns.drop (p + 1)).take (m.idleIdx - 1 - p)
              = (m.conns.take m.idleIdx).drop (p + 1) := by
            rw [List.drop_take]
            congr 1
            omega
          rw [heq] at hc
          exact h3 c ((List.drop_sublist _ _).subset hc)
      · dsimp only
        rw [if_pos hlt]
        intro c hc
        rw [hE, List.drop_append_eq_append_drop, hlp,
          List.drop_of_length_le (show (m.conns.take p).length ≤ m.idleIdx - 1 by rw [hlp]; omega),
          List.drop_drop] at hc
        rw [List.nil_append] at hc
        rw [show p + 1 + (m.idleIdx - 1 - p) = m.idleIdx from by omega] at hc
        exact h4 c hc
    · refine ⟨?_, hnd, ?_, ?_⟩
      · dsimp only
        rw [if_neg hlt, hElen]
        omega
      · dsimp only
        rw [if_neg hlt]
        intro c hc
        rw [hE, List.take_append_eq_append_take, hlp,
          show m.idleIdx - p = 0 from by omega, List.take_zero, List.append_nil,
          List.take_take, min_eq_left (by omega)] at hc
        exact h3 c hc
      · dsimp only
        rw [if_neg hlt]
        intro c hc
        rw [hE, List.drop_append_eq_append_drop, hlp] at hc
        rcases List.mem_append.mp hc with hc | hc
        · rw [List.drop_take] at hc
          exact h4 c ((List.take_sublist _ _).subset hc)
        · rw [show m.idleIdx - p = 0 from by omega, List.drop_zero] at hc
          have : m.conns.drop (p + 1) = (m.conns.drop m.idleIdx).drop (p + 1 - m.idleIdx) := by
            rw [List.drop_drop]
            congr 1
            omega
          rw [this] at hc
          exact h4 c ((List.drop_sublist _ _).subset hc)
  · rw [if_neg hfound]
    exact ⟨h1, h2, h3, h4⟩

theorem reach_inv (m0 m : CM) (h : Reach m0 m) (h0 : Inv m0) : Inv m := by
  induction h with
  | refl => exact h0
  | add mb i s hr hf ih => exact inv_add i s mb ih hf
  | remove mb i hr ih => exact inv_remove i mb ih

/-- C1: for every sequence of addConnection/removeConnection operations
from a fresh manager, getNumConnections equals the number of linked
connections, and the busy region [begin, idleIterator) together with the
idle region [idleIterator, end) partitions them exactly: together they are
the whole list and no connection id occurs in both regions. -/
theorem connections_partitioned (t : Int) (m : CM) (h : Reach (initCM t) m) :
    getNumConnections m
        = (m.conns.take m.idleIdx).length + (m.conns.drop m.idleIdx).length
      ∧ m.conns.take m.idleIdx ++ m.conns.drop m.idleIdx = m.conns
      ∧ (∀ i, i ∈ (m.conns.take m.idleIdx).map (fun c => c.id) →
          i ∉ (m.conns.drop m.idleIdx).map (fun c => c.id)) := by
  have hinv := reach_inv _ _ h (inv_initCM t)
  refine ⟨?_, List.take_append_drop _ _, ?_⟩
  · unfold getNumConnections
    rw [List.length_take, List.length_drop]
    omega
  · intro i hi hcontra
    have hnd := hinv.2.1
    rw [← List.take_append_drop m.idleIdx m.conns, List.map_append] at hnd
    exact (List.disjoint_of_nodup_append hnd) hi hcontra

theorem connections_partitioned_witness :
    getNumConnections (addConnection 1 false (initCM 100)).1
        = (((addConnection 1 false (initCM 100)).1).conns.take
              ((addConnection 1 false (initCM 100)).1).idleIdx).length
          + (((addConnection 1 false (initCM 100)).1).conns.drop
              ((addConnection 1 false (initCM 100)).1).idleIdx).length
      ∧ ((addConnection 1 false (initCM 100)).1).conns.take
            ((addConnection 1 false (initCM 100)).1).idleIdx
          ++ ((addConnection 1 false (initCM 100)).1).conns.drop
            ((addConnection 1 false (initCM 100)).1).idleIdx
        = ((addConnection 1 false (initCM 100)).1).conns
      ∧ (∀ i, i ∈ (((addConnection 1 false (initCM 100)).1).conns.take
              ((addConnection 1 false (initCM 100)).1).idleIdx).map (fun c => c.id) →
          i ∉ (((addConnection 1 false (initCM 100)).1).conns.drop
              ((addConnection 1 false (initCM 100)).1).idleIdx).map (fun c => c.id)) :=
  connections_partitioned 100 _
    (Reach.add _ _ 1 false (Reach.refl _) (by simp [initCM]))

theorem dropIdleLoop_spec :
    ∀ (n : Nat) (m : CM), Inv m →
      (dropIdleLoop n m).2.length = min n (m.conns.length - m.idleIdx)
        ∧ (∀ c ∈ (dropIdleLoop n m).2, c.busy = false) := by
  intro n
  induction n with
  | zero =>
    intro m _
    constructor
    · simp [dropIdleLoop]
    · intro c hc
      simp [dropIdleLoop] at hc
  | succ n ih =>
    intro m hinv
    obtain ⟨h1, h2, h3, h4⟩ := hinv
    by_cases hlt : m.idleIdx < m.conns.length
    · rw [dropIdleLoop, dif_pos hlt]
      dsimp only
      have hInv' : Inv { m with
          conns := m.conns.dropLast,
          pending := m.pending.filter
            (fun e => e.1 != (m.conns.get ⟨m.conns.length - 1, by omega⟩).id) } := by
        refine ⟨?_, ?_, ?_, ?_⟩
        · dsimp only
          rw [List.length_dropLast]
          omega
        · exact ((List.dropLast_sublist m.conns).map (fun c => c.id)).nodup h2
        · dsimp only
          rw [List.dropLast_eq_take, List.take_take, min_eq_left (by omega)]
          exact h3
        · dsimp only
          rw [List.dropLast_eq_take, List.drop_take]
          intro c hc
          exact h4 c ((List.take_sublist _ _).subset hc)
      have hlast : m.conns.get ⟨m.conns.length - 1, by omega⟩ ∈ m.conns.drop m.idleIdx := by
        have hj : m.conns.length - 1 - m.idleIdx < (m.conns.drop m.idleIdx).length := by
          rw [List.length_drop]
          omega
        refine List.mem_iff_get.mpr ⟨⟨m.conns.length - 1 - m.idleIdx, hj⟩, ?_⟩
        rw [List.get_eq_getElem, List.get_eq_getElem, List.getElem_drop]
        congr 1
        show m.idleIdx + (m.conns.length - 1 - m.idleIdx) = m.conns.length - 1
        omega
      obtain ⟨ihlen, ihbusy⟩ := ih _ hInv'
      constructor
      · rw [List.length_cons, ihlen]
        dsimp only
        rw [List.length_dropLast]
        omega
      · intro c hc
        rcases List.mem_cons.mp hc with hc | hc
        · rw [hc]
          exact h4 _ hlast
        · exact ihbusy c hc
    · rw [dropIdleLoop, dif_neg hlt]
      constructor
      · simp only [List.length_nil]
        omega
      · intro c hc
        simp at hc

/-- C2: dropIdleConnections(n) never closes a busy connection (every
closed connection reports idle), closes at most n connections walking the
idle region from its oldest-idle end, and returns exactly the number it
closed; when n is at least the idle count it closes and returns exactly
the idle count. -/
theorem dropIdleConnections_spec (num : Nat) (m : CM) (hinv : Inv m) :
    (dropIdleConnections num m).2 = (dropIdleLoop num m).2.length
      ∧ (∀ c ∈ (dropIdleLoop num m).2, c.busy = false)
      ∧ (dropIdleConnections num m).2 = min num (getNumConnections m - m.idleIdx)
      ∧ (dropIdleConnections num m).2 ≤ num
      ∧ (getNumConnections m - m.idleIdx ≤ num →
          (dropIdleConnections num m).2 = getNumConnections m - m.idleIdx) := by
  obtain ⟨hl, hb⟩ := dropIdleLoop_spec num m hinv
  have hc : (dropIdleConnections num m).2 = (dropIdleLoop num m).2.length := rfl
  have hg : getNumConnections m = m.conns.length := rfl
  refine ⟨hc, hb, ?_, ?_, ?_⟩
  · rw [hc, hl, hg]
  · rw [hc, hl]
    omega
  · intro hge
    rw [hg] at hge
    rw [hc, hl, hg]
    omega

theorem dropIdleConnections_spec_witness :
    (dropIdleConnections 3 ({ initCM 100 with conns := [⟨5, false⟩] } : CM)).2
          = (dropIdleLoop 3 ({ initCM 100 with conns := [⟨5, false⟩] } : CM)).2.length
      ∧ (∀ c ∈ (dropIdleLoop 3 ({ initCM 100 with conns := [⟨5, false⟩] } : CM)).2,
          c.busy = false)
      ∧ (dropIdleConnections 3 ({ initCM 100 with conns := [⟨5, false⟩] } : CM)).2
          = min 3 (getNumConnections ({ initCM 100 with conns := [⟨5, false⟩] } : CM)
              - ({ initCM 100 with conns := [⟨5, false⟩] } : CM).idleIdx)
      ∧ (dropIdleConnections 3 ({ initCM 100 with conns := [⟨5, false⟩] } : CM)).2 ≤ 3
      ∧ (getNumConnections ({ initCM 100 with conns := [⟨5, false⟩] } : CM)
            - ({ initCM 100 with conns := [⟨5, false⟩] } : CM).idleIdx ≤ 3 →
          (dropIdleConnections 3 ({ initCM 100 with conns := [⟨5, false⟩] } : CM)).2
            = getNumConnections ({ initCM 100 with conns := [⟨5, false⟩] } : CM)
              - ({ initCM 100 with conns := [⟨5, false⟩] } : CM).idleIdx) :=
  dropIdleConnections_spec 3 { initCM 100 with conns := [⟨5, false⟩] }
    (by
      refine ⟨by simp [initCM], by simp [initCM], ?_, ?_⟩
      · intro c hc
        simp [initCM] at hc
      · intro c hc
        simp [initCM] at hc
        simp [hc])

theorem getNum_add (i : Nat) (s : Bool) (m : CM) :
    getNumConnections (stepState m (Op.add i s)) = getNumConnections m + 1 := by
  unfold stepState stepOp getNumConnections
  rw [addConnection_conns]
  rfl

theorem remove_of_empty (i : Nat) (m : CM) (h : getNumConnections m = 0) :
    stepState m (Op.remove i) = m := by
  unfold getNumConnections at h
  have hnil : m.conns = [] := List.length_eq_zero.mp h
  simp [stepState, stepOp, removeConnection, hnil]

theorem getNum_remove_le (i : Nat) (m : CM) :
    getNumConnections (stepState m (Op.remove i)) ≤ getNumConnections m := by
  simp only [stepState, stepOp, getNumConnections, removeConnection]
  split
  · dsimp only
    rw [List.length_eraseIdx]
    split <;> omega
  · exact le_refl _

theorem step_empty_count (m : CM) (o : Op) :
    ((stepOp m o).2).count Ev.empty
      = if getNumConnections m ≠ 0 ∧ getNumConnections (stepState m o) = 0
        then 1 else 0 := by
  cases o with
  | add i s =>
    have h2 := getNum_add i s m
    have hev : (stepOp m (Op.add i s)).2 = [Ev.added] := by cases s <;> rfl
    rw [hev, if_neg]
    · decide
    · rintro ⟨_, hb⟩
      omega
  | remove i =>
    by_cases hz : getNumConnections m = 0
    · have hnil : m.conns = [] := List.length_eq_zero.mp hz
      have hev : (stepOp m (Op.remove i)).2 = [] := by
        simp [stepOp, removeConnection, hnil]
      rw [hev, if_neg]
      · decide
      · rintro ⟨ha, _⟩
        exact ha hz
    · simp only [stepOp, stepState, getNumConnections, removeConnection]
      by_cases hf : m.conns.findIdx (fun c => c.id == i) < m.conns.length
      · rw [if_pos hf]
        dsimp only
        have hElen : (m.conns.eraseIdx (m.conns.findIdx (fun c => c.id == i))).length
            = m.conns.length - 1 := by
          rw [List.length_eraseIdx]
          simp [hf]
        by_cases he : (m.conns.eraseIdx (m.conns.findIdx (fun c => c.id == i))).isEmpty
        · rw [if_pos he]
          have hEnil := List.isEmpty_iff.mp he
          rw [if_pos]
          · rfl
          · constructor
            · unfold getNumConnections at hz
              exact hz
            · rw [hEnil]
              rfl
        · rw [if_neg he]
          rw [if_neg]
          · rfl
          · rintro ⟨_, hb⟩
            have : m.conns.eraseIdx (m.conns.findIdx (fun c => c.id == i)) = [] :=
              List.length_eq_zero.mp hb
            exact he (by rw [this]; rfl)
      · rw [if_neg hf]
        rw [if_neg]
        · rfl
        · rintro ⟨ha, hb⟩
          exact ha hb

theorem mAfter_take_succ (m : CM) (ops : List Op) (i : Nat) (hi : i < ops.length) :
    mAfter m (ops.take (i + 1)) = stepState (mAfter m (ops.take i)) (ops.get ⟨i, hi⟩) := by
  unfold mAfter
  rw [List.take_succ, List.getElem?_eq_getElem hi]
  rw [List.foldl_append]
  rfl

theorem add_between (m : CM) (ops : List Op) (a b : Nat) (hab : a ≤ b)
    (hb : b ≤ ops.length)
    (h0 : getNumConnections (mAfter m (ops.take a)) = 0)
    (hne : getNumConnections (mAfter m (ops.take b)) ≠ 0) :
    ∃ k, a ≤ k ∧ k < b
      ∧ ∃ (hk : k < ops.length) (j : Nat) (s : Bool), ops.get ⟨k, hk⟩ = Op.add j s := by
  induction b, hab using Nat.le_induction with
  | base => exact absurd h0 hne
  | succ n hn ih =>
    have hstep := mAfter_take_succ m ops n (by omega)
    by_cases hz : getNumConnections (mAfter m (ops.take n)) = 0
    · cases hop : ops.get ⟨n, by omega⟩ with
      | add j s => exact ⟨n, by omega, by omega, by omega, j, s, hop⟩
      | remove j =>
        rw [hstep, hop, remove_of_empty j _ hz] at hne
        exact absurd hz hne
    · obtain ⟨k, hk1, hk2, hrest⟩ := ih (by omega) hz
      exact ⟨k, hk1, by omega, hrest⟩

/-- C4: the onEmpty observer callback fires exactly once on each step that
takes the connection count from non-zero to zero, never on a step after
which the count is non-zero, and between any two steps that fire it there
is an intervening addConnection. -/
theorem onEmpty_exactly_on_empty_transition (m : CM) (ops : List Op) (i : Nat)
    (hi : i < ops.length) :
    ((stepOp (mAfter m (ops.take i)) (ops.get ⟨i, hi⟩)).2.count Ev.empty
        = if getNumConnections (mAfter m (ops.take i)) ≠ 0
              ∧ getNumConnections (mAfter m (ops.take (i + 1))) = 0
          then 1 else 0)
      ∧ (∀ (j : Nat) (hj : j < ops.length), i < j →
          Ev.empty ∈ (stepOp (mAfter m (ops.take i)) (ops.get ⟨i, hi⟩)).2 →
          Ev.empty ∈ (stepOp (mAfter m (ops.take j)) (ops.get ⟨j, hj⟩)).2 →
          ∃ k, i < k ∧ k < j
            ∧ ∃ (hk : k < ops.length) (j' : Nat) (s : Bool),
              ops.get ⟨k, hk⟩ = Op.add j' s) := by
  constructor
  · rw [mAfter_take_succ m ops i hi]
    exact step_empty_count _ _
  · intro j hj hij hei hej
    have h1 := step_empty_count (mAfter m (ops.take i)) (ops.get ⟨i, hi⟩)
    have h2 := step_empty_count (mAfter m (ops.take j)) (ops.get ⟨j, hj⟩)
    have hci : 0 < ((stepOp (mAfter m (ops.take i)) (ops.get ⟨i, hi⟩)).2).count Ev.empty :=
      List.count_pos_iff.mpr hei
    have hcj : 0 < ((stepOp (mAfter m (ops.take j)) (ops.get ⟨j, hj⟩)).2).count Ev.empty :=
      List.count_pos_iff.mpr hej
    rw [h1] at hci
    rw [h2] at hcj
    have hA : getNumConnections (stepState (mAfter m (ops.take i)) (ops.get ⟨i, hi⟩)) = 0 := by
      by_contra hcon
      rw [if_neg (by rintro ⟨_, hb⟩; exact hcon hb)] at hci
      omega
    have hB : getNumConnections (mAfter m (ops.take j)) ≠ 0 := by
      by_contra hcon
      rw [if_neg (by rintro ⟨ha, _⟩; exact ha hcon)] at hcj
      omega
    rw [← mAfter_take_succ m ops i hi] at hA
    obtain ⟨k, hk1, hk2, hrest⟩ :=
      add_between m ops (i + 1) j (by omega) (by omega) hA hB
    exact ⟨k, by omega, hk2, hrest⟩

theorem onEmpty_exactly_on_empty_transition_witness :
    ((stepOp (mAfter (initCM 100) ([Op.add 1 false, Op.remove 1].take 1))
          ([Op.add 1 false, Op.remove 1].get ⟨1, by decide⟩)).2.count Ev.empty
        = if getNumConnections (mAfter (initCM 100) ([Op.add 1 false, Op.remove 1].take 1)) ≠ 0
              ∧ getNumConnections (mAfter (initCM 100) ([Op.add 1 false, Op.remove 1].take 2)) = 0
          then 1 else 0)
      ∧ (∀ (j : Nat) (hj : j < ([Op.add 1 false, Op.remove 1] : List Op).length), 1 < j →
          Ev.empty ∈ (stepOp (mAfter (initCM 100) ([Op.add 1 false, Op.remove 1].take 1))
            ([Op.add 1 false, Op.remove 1].get ⟨1, by decide⟩)).2 →
          Ev.empty ∈ (stepOp (mAfter (initCM 100) ([Op.add 1 false, Op.remove 1].take j))
            ([Op.add 1 false, Op.remove 1].get ⟨j, hj⟩)).2 →
          ∃ k, 1 < k ∧ k < j
            ∧ ∃ (hk : k < ([Op.add 1 false, Op.remove 1] : List Op).length) (j' : Nat) (s : Bool),
              ([Op.add 1 false, Op.remove 1] : List Op).get ⟨k, hk⟩ = Op.add j' s) :=
  onEmpty_exactly_on_empty_transition (initCM 100) [Op.add 1 false, Op.remove 1] 1 (by decide)

end Wangle
